import Mathlib

/-!
Verification development for the pixlink image-pipeline repository.

The C++ sources are shallowly embedded:
* `LRU` models `LRUCacheManager` (include/pipeline/strategy_lru.hpp);
  the `std::list usage_` is a `List Key` with front = most recently used,
  and the `std::unordered_map map_` is an association list `store`
  (the stored list-iterator of the C++ map is recovered from the
  position of the key in `usage`, so it is not represented separately).
* `Rect` and `Rect.inter` model `cv::Rect` and its `operator&`.
* `processRegion` / `resetRegion` model `RegionPipeline`
  (include/pipeline/region_pipeline.hpp); the run result is instrumented
  with the number of detector invocations and the list of roi rectangles
  passed to the region operation, so memoization and invocation claims
  can be stated.
* `applyFilterToRegions` models the helper of
  include/pipeline/region_filter.hpp over abstract image operations.
* `PState` with `Pipeline.load` / `release` / `reset` / `process` models
  the corresponding members of `Pipeline` (include/pipeline/pipeline.hpp)
  instantiated with the default unbounded cache
  (`DefaultCacheManager`, include/pipeline/strategy_default.hpp).
  C++ exceptions are modelled by returning the state reached at the
  throw point together with an `Option Err`.
-/

namespace Pixlink

abbrev Key := String

/-- Lookup in an association list, modelling `unordered_map::find`. -/
def alookup {α : Type} : List (Key × α) → Key → Option α
  | [], _ => none
  | (k, v) :: rest, key => if k = key then some v else alookup rest key

/-- Insert-or-assign in an association list, modelling `map[key] = v`. -/
def aupdate {α : Type} : List (Key × α) → Key → α → List (Key × α)
  | [], key, v => [(key, v)]
  | (k, w) :: rest, key, v =>
      if k = key then (key, v) :: rest else (k, w) :: aupdate rest key v

/-- Erase a key from an association list, modelling `map.erase(key)`
(`unordered_map` keys are unique, so dropping every pair with the key
agrees with erasing the one stored node). -/
def aerase {α : Type} : List (Key × α) → Key → List (Key × α)
  | [], _ => []
  | (k, v) :: rest, key =>
      if k = key then aerase rest key else (k, v) :: aerase rest key

/-- Remove the first occurrence of a key from a key list, modelling
erasing / splicing out one `std::list` node. -/
def removeKey : List Key → Key → List Key
  | [], _ => []
  | x :: xs, k => if x = k then xs else x :: removeKey xs k

/-- State of `LRUCacheManager` (strategy_lru.hpp): fixed `capacity`,
recency list `usage` (front = most recently used) and the backing map
`store`. -/
structure LRU (α : Type) where
  capacity : Nat
  usage : List Key
  store : List (Key × α)
deriving Repr

/-- A freshly constructed `LRUCacheManager(capacity)`. -/
def LRU.empty (α : Type) (cap : Nat) : LRU α := ⟨cap, [], []⟩

/-- Model of `LRUCacheManager::cacheImage` (strategy_lru.hpp lines 39-53).
If the key is present, the value is updated and the key spliced to the
front of the recency list.  Otherwise, when `map_.size() == capacity_`
the back of the recency list is evicted (on an empty list the C++ code
would read `usage_.back()` out of bounds; the model totalizes that read
with `getLast?.getD ""`), then the key is pushed to the front and
inserted in the map. -/
def LRU.cacheImage {α : Type} (c : LRU α) (key : Key) (img : α) : LRU α :=
  match alookup c.store key with
  | some _ =>
      { c with store := aupdate c.store key img,
               usage := key :: removeKey c.usage key }
  | none =>
      let c1 : LRU α :=
        if c.store.length = c.capacity then
          { c with store := aerase c.store (c.usage.getLast?.getD ""),
                   usage := c.usage.dropLast }
        else c
      { c1 with usage := key :: c1.usage, store := (key, img) :: c1.store }

/-- Model of `LRUCacheManager::isCached`. -/
def LRU.isCached {α : Type} (c : LRU α) (key : Key) : Bool :=
  (alookup c.store key).isSome

/-- Model of `LRUCacheManager::getCached` (strategy_lru.hpp lines 74-79): returns
the stored value and splices the key to the front of the recency list;
`none` models the thrown `std::runtime_error` (state unchanged). -/
def LRU.getCachedSt {α : Type} (c : LRU α) (key : Key) : Option α × LRU α :=
  match alookup c.store key with
  | none => (none, c)
  | some v => (some v, { c with usage := key :: removeKey c.usage key })

/-- Model of `LRUCacheManager::getCachedShallow` (strategy_lru.hpp lines 90-95):
identical observable behaviour to `getCached` in the model. -/
def LRU.getCachedShallowSt {α : Type} (c : LRU α) (key : Key) :
    Option α × LRU α :=
  match alookup c.store key with
  | none => (none, c)
  | some v => (some v, { c with usage := key :: removeKey c.usage key })

/-- Model of `LRUCacheManager::remove`. -/
def LRU.removeImage {α : Type} (c : LRU α) (key : Key) : LRU α :=
  match alookup c.store key with
  | none => c
  | some _ =>
      { c with usage := removeKey c.usage key, store := aerase c.store key }

/-- Model of `LRUCacheManager::clear`. -/
def LRU.clearAll {α : Type} (c : LRU α) : LRU α :=
  { c with usage := [], store := [] }

/-- Model of `LRUCacheManager::getKeys` (strategy_lru.hpp lines 125-129): the
recency list from most recently used to least recently used. -/
def LRU.getKeys {α : Type} (c : LRU α) : List Key := c.usage

/-- The key the eviction branch of `cacheImage` would remove next:
`usage_.back()`. -/
def LRU.evictionVictim {α : Type} (c : LRU α) : Option Key :=
  c.usage.getLast?

/-- Fold `cacheImage` over a list of key/value pairs, in order. -/
def LRU.insertList {α : Type} (c : LRU α) (ks : List (Key × α)) : LRU α :=
  ks.foldl (fun s kv => s.cacheImage kv.1 kv.2) c

/-- The guard situation of the unchecked `usage_.back()` read: the
eviction branch of `cacheImage key` is reached while the recency list is
empty. -/
def LRU.evictBranchOnEmpty {α : Type} (c : LRU α) (key : Key) : Prop :=
  alookup c.store key = none ∧ c.store.length = c.capacity ∧ c.usage = []

/-- Model of `cv::Rect`: integer x, y, width, height. -/
structure Rect where
  x : Int
  y : Int
  w : Int
  h : Int
deriving DecidableEq, Repr

/-- Model of `cv::Rect::operator&`: the intersection of two rectangles, with an
empty result normalized to the all-zero rectangle. -/
def Rect.inter (a b : Rect) : Rect :=
  let x := max a.x b.x
  let y := max a.y b.y
  let w := min (a.x + a.w) (b.x + b.w) - x
  let h := min (a.y + a.h) (b.y + b.h) - y
  if w ≤ 0 ∨ h ≤ 0 then ⟨0, 0, 0, 0⟩ else ⟨x, y, w, h⟩

/-- A rectangle is non-empty when both extents are positive
(`roi.width > 0 && roi.height > 0` in region_filter.hpp). -/
def Rect.nonEmpty (r : Rect) : Bool := 0 < r.w && 0 < r.h

/-- Operations the generic `ImageType` template parameter must support:
`cols`/`rows` bounds, region crop (`result(roi)`) and region write-back
(`filtered.copyTo(result(roi))`).  `clone` has value semantics and is
the identity on the modelled value. -/
structure ImageOps (α : Type) where
  cols : α → Int
  rows : α → Int
  crop : α → Rect → α
  copyTo : α → Rect → α → α

/-- Model of `ImageRegionMeta` (faces_meta.hpp): the detected regions and the
memoization flag.  The unused default-constructed `image` field is
omitted. -/
structure RegionMeta where
  regions : List Rect
  regionsDetected : Bool
deriving Repr

/-- A default-constructed `ImageRegionMeta`, as produced by
`metaMap[key]` for an absent key. -/
def RegionMeta.default : RegionMeta := ⟨[], false⟩

/-- State seen by `RegionPipeline`: its own `metaMap` plus the working
map of the owning `Pipeline`, to which it holds a reference. -/
structure RState (α : Type) where
  metaMap : List (Key × RegionMeta)
  workingMap : List (Key × α)

/-- The region loop of `RegionPipeline::processRegion`
(region_pipeline.hpp lines 36-39): for each detected rectangle, clamp it
to the current image bounds and invoke the in-place region operation on
the clamped roi.  The second component records every roi passed to the
region operation, in order. -/
def regionLoop {α : Type} (ops : ImageOps α) (f : α → Rect → α) :
    α → List Rect → α × List Rect
  | img, [] => (img, [])
  | img, r :: rs =>
      let roi := r.inter ⟨0, 0, ops.cols img, ops.rows img⟩
      let img2 := f img roi
      let rest := regionLoop ops f img2 rs
      (rest.1, roi :: rest.2)

/-- Result of one `processRegion` call: the new state, whether the
key-not-found error was thrown, how many times the detector ran, and the
roi rectangles passed to the region operation. -/
structure RRun (α : Type) where
  state : RState α
  keyNotFound : Bool
  detectorCalls : Nat
  rois : List Rect

/-- Model of `RegionPipeline::processRegion` (region_pipeline.hpp lines 24-42).
Throws if the key is not in the working map; otherwise default-creates
the `RegionMeta` of the key if absent, runs the detector once when
`regionsDetected` is false, then applies the region operation to every
cached region clamped to the current bounds, mutating the working-map
entry in place. -/
def processRegion {α : Type} (ops : ImageOps α) (detector : α → List Rect)
    (st : RState α) (key : Key) (f : α → Rect → α) : RRun α :=
  match alookup st.workingMap key with
  | none => ⟨st, true, 0, []⟩
  | some img =>
      let meta0 := (alookup st.metaMap key).getD RegionMeta.default
      let detected :=
        if meta0.regionsDetected then (meta0, 0)
        else (⟨detector img, true⟩, 1)
      let run := regionLoop ops f img detected.1.regions
      ⟨⟨aupdate st.metaMap key detected.1,
        aupdate st.workingMap key run.1⟩,
       false, detected.2, run.2⟩

/-- Model of `RegionPipeline::resetRegion` (region_pipeline.hpp lines 44-47):
drops the metadata of the key. -/
def resetRegion {α : Type} (st : RState α) (key : Key) : RState α :=
  { st with metaMap := aerase st.metaMap key }

/-- Run a sequence of `processRegion` calls for one key, accumulating
the total number of detector invocations. -/
def runSeq {α : Type} (ops : ImageOps α) (detector : α → List Rect)
    (st : RState α) (key : Key) : List (α → Rect → α) → RState α × Nat
  | [] => (st, 0)
  | f :: rest =>
      let r := processRegion ops detector st key f
      let tail := runSeq ops detector r.state key rest
      (tail.1, r.detectorCalls + tail.2)

/-- Model of `applyFilterToRegions` (region_filter.hpp): clone the image, then
for each box clamp it to the current bounds and, only when the clamped
roi is non-empty, crop, filter and copy back.  The second component
records the rois on which the filter was actually invoked, in order. -/
def applyFilterToRegions {α : Type} (ops : ImageOps α) (img : α) :
    List Rect → (α → α) → α × List Rect
  | [], _ => (img, [])
  | rect :: rest, f =>
      let roi := rect.inter ⟨0, 0, ops.cols img, ops.rows img⟩
      if roi.nonEmpty then
        let img2 := ops.copyTo img roi (f (ops.crop img roi))
        let tail := applyFilterToRegions ops img2 rest f
        (tail.1, roi :: tail.2)
      else applyFilterToRegions ops img rest f

/-- Error kinds thrown by `Pipeline` members. -/
inductive Err where
  | fileNotFound
  | keyNotFound
  | cacheMiss
deriving DecidableEq, Repr

/-- State of a `Pipeline` instantiated with the default unbounded cache
(`DefaultCacheManager`): the immutable input folder is modelled by
`files`, mapping each resolvable relative path to the item its file
loads to (`none` = the file does not exist under `inputFolder`), plus
the working map and the cache map. -/
structure PState (α : Type) where
  files : List (Key × α)
  workingMap : List (Key × α)
  cache : List (Key × α)
deriving Repr

namespace Pipeline

/-- Model of `Pipeline::load(path)` (pipeline.hpp lines 74-85): throw
`FileNotFound` if the resolved file is absent; no-op if the path is
already a working-set key; otherwise populate the cache via the loader
when not cached, then copy the cached value into the working set. -/
def load {α : Type} (st : PState α) (path : Key) : PState α × Option Err :=
  match alookup st.files path with
  | none => (st, some .fileNotFound)
  | some item =>
      if (alookup st.workingMap path).isSome then (st, none)
      else
        let cache1 :=
          if (alookup st.cache path).isSome then st.cache
          else aupdate st.cache path item
        match alookup cache1 path with
        | some v =>
            ({ st with cache := cache1,
                       workingMap := aupdate st.workingMap path v }, none)
        | none => ({ st with cache := cache1 }, some .cacheMiss)

/-- Model of `Pipeline::release` (pipeline.hpp lines 312-316): remove from the
working set only; throw `KeyNotFound` when absent. -/
def release {α : Type} (st : PState α) (key : Key) : PState α × Option Err :=
  if (alookup st.workingMap key).isSome then
    ({ st with workingMap := aerase st.workingMap key }, none)
  else (st, some .keyNotFound)

/-- Model of `Pipeline::reset` (pipeline.hpp lines 324-326):
`release(key)` then `load(key)`; a throw in either step propagates with
the mutations performed so far retained. -/
def reset {α : Type} (st : PState α) (key : Key) : PState α × Option Err :=
  let r := release st key
  match r.2 with
  | some e => (r.1, some e)
  | none => load r.1 key

/-- Model of `Pipeline::process` (pipeline.hpp lines 188-192): throw
`KeyNotFound` when the key is not in the working set, else replace the
working-set value with `op` applied to it. -/
def process {α : Type} (st : PState α) (key : Key) (op : α → α) :
    PState α × Option Err :=
  match alookup st.workingMap key with
  | none => (st, some .keyNotFound)
  | some v =>
      ({ st with workingMap := aupdate st.workingMap key (op v) }, none)

end Pipeline

/-- A concrete item type for witnesses and counterexamples: bounds plus
an opaque payload tag. -/
structure Img where
  cols : Int
  rows : Int
  tag : Nat
deriving DecidableEq, Repr

/-- Image operations for `Img`; crop and copy-back keep the payload
opaque. -/
def imgOps : ImageOps Img :=
  ⟨Img.cols, Img.rows, fun i _ => i, fun i _ _ => i⟩

/-! ### Association-list lemmas -/

theorem alookup_aupdate_self {α : Type} (m : List (Key × α)) (k : Key)
    (v : α) : alookup (aupdate m k v) k = some v := by
  induction m with
  | nil => simp [aupdate, alookup]
  | cons p rest ih =>
      obtain ⟨a, b⟩ := p
      by_cases ha : a = k
      · subst ha
        simp [aupdate, alookup]
      · simp [aupdate, alookup, ha, ih]

theorem alookup_aupdate_ne {α : Type} (m : List (Key × α)) {k k2 : Key}
    (v : α) (h : k2 ≠ k) : alookup (aupdate m k v) k2 = alookup m k2 := by
  have hk : k ≠ k2 := fun he => h he.symm
  induction m with
  | nil => simp [aupdate, alookup, hk]
  | cons p rest ih =>
      obtain ⟨a, b⟩ := p
      by_cases ha : a = k
      · subst ha
        simp [aupdate, alookup, hk]
      · simp [aupdate, alookup, ha, ih]

theorem alookup_aerase_self {α : Type} (m : List (Key × α)) (k : Key) :
    alookup (aerase m k) k = none := by
  induction m with
  | nil => simp [aerase, alookup]
  | cons p rest ih =>
      obtain ⟨a, b⟩ := p
      by_cases ha : a = k
      · simp [aerase, ha, ih]
      · simp [aerase, alookup, ha, ih]

theorem alookup_aerase_ne {α : Type} (m : List (Key × α)) {k k2 : Key}
    (h : k2 ≠ k) : alookup (aerase m k) k2 = alookup m k2 := by
  have hk : k ≠ k2 := fun he => h he.symm
  induction m with
  | nil => simp [aerase]
  | cons p rest ih =>
      obtain ⟨a, b⟩ := p
      by_cases ha : a = k
      · subst ha
        simp [aerase, alookup, hk, ih]
      · simp [aerase, alookup, ha, ih]

theorem length_aupdate_of_isSome {α : Type} (m : List (Key × α)) (k : Key)
    (v : α) (h : (alookup m k).isSome) :
    (aupdate m k v).length = m.length := by
  induction m with
  | nil => simp [alookup] at h
  | cons p rest ih =>
      obtain ⟨a, b⟩ := p
      by_cases ha : a = k
      · simp [aupdate, ha]
      · simp [alookup, ha] at h
        simp [aupdate, ha, ih h]

theorem alookup_eq_none_iff {α : Type} (m : List (Key × α)) (k : Key) :
    alookup m k = none ↔ k ∉ m.map Prod.fst := by
  induction m with
  | nil => simp [alookup]
  | cons p rest ih =>
      obtain ⟨a, b⟩ := p
      by_cases ha : a = k
      · subst ha
        simp [alookup]
      · have hka : k ≠ a := fun he => ha he.symm
        simp [alookup, ha, hka, ih]

theorem alookup_append_of_not_mem_left {α : Type}
    (m1 m2 : List (Key × α)) (k : Key) (h : k ∉ m1.map Prod.fst) :
    alookup (m1 ++ m2) k = alookup m2 k := by
  induction m1 with
  | nil => simp
  | cons p rest ih =>
      obtain ⟨a, b⟩ := p
      simp only [List.map_cons, List.mem_cons, not_or] at h
      have hak : a ≠ k := fun he => h.1 he.symm
      simp [alookup, hak, ih h.2]

theorem mem_removeKey_of_ne {l : List Key} {k k2 : Key} (h : k2 ≠ k) :
    k2 ∈ removeKey l k ↔ k2 ∈ l := by
  induction l with
  | nil => simp [removeKey]
  | cons x xs ih =>
      by_cases hx : x = k
      · subst hx
        simp only [removeKey, if_pos rfl, List.mem_cons]
        constructor
        · exact fun hm => Or.inr hm
        · rintro (h1 | h1)
          · exact absurd h1 h
          · exact h1
      · simp only [removeKey, if_neg hx, List.mem_cons, ih]

theorem mem_of_mem_removeKey {l : List Key} {k k2 : Key}
    (h : k2 ∈ removeKey l k) : k2 ∈ l := by
  induction l with
  | nil => simp [removeKey] at h
  | cons x xs ih =>
      by_cases hx : x = k
      · simp only [removeKey, if_pos hx] at h
        exact List.mem_cons_of_mem _ h
      · simp only [removeKey, if_neg hx, List.mem_cons] at h
        rcases h with h1 | h1
        · exact h1 ▸ List.mem_cons_self _ _
        · exact List.mem_cons_of_mem _ (ih h1)

theorem not_mem_removeKey_self {l : List Key} (hnd : l.Nodup) (k : Key) :
    k ∉ removeKey l k := by
  induction l with
  | nil => simp [removeKey]
  | cons x xs ih =>
      rcases List.nodup_cons.mp hnd with ⟨hx, hxs⟩
      by_cases hxk : x = k
      · subst hxk
        simpa [removeKey] using hx
      · have hkx : k ≠ x := fun he => hxk he.symm
        simp only [removeKey, if_neg hxk, List.mem_cons, not_or]
        exact ⟨hkx, ih hxs⟩

theorem length_removeKey_of_mem {l : List Key} {k : Key} (h : k ∈ l) :
    (removeKey l k).length + 1 = l.length := by
  induction l with
  | nil => simp at h
  | cons x xs ih =>
      by_cases hx : x = k
      · simp [removeKey, hx]
      · rcases List.mem_cons.mp h with h1 | h1
        · exact absurd h1.symm hx
        · have := ih h1
          simp only [removeKey, if_neg hx, List.length_cons]
          omega

theorem nodup_removeKey {l : List Key} (hnd : l.Nodup) (k : Key) :
    (removeKey l k).Nodup := by
  induction l with
  | nil => simp [removeKey]
  | cons x xs ih =>
      rcases List.nodup_cons.mp hnd with ⟨hx, hxs⟩
      by_cases hxk : x = k
      · simp only [removeKey, if_pos hxk]
        exact hxs
      · simp only [removeKey, if_neg hxk]
        exact List.nodup_cons.mpr
          ⟨fun hmem => hx (mem_of_mem_removeKey hmem), ih hxs⟩

theorem nodup_cons_removeKey {l : List Key} (hnd : l.Nodup) (k : Key) :
    (k :: removeKey l k).Nodup :=
  List.nodup_cons.mpr ⟨not_mem_removeKey_self hnd k, nodup_removeKey hnd k⟩

/-! ### LRU cache lemmas -/

theorem LRU.insertList_cons {α : Type} (c : LRU α) (p : Key × α)
    (rest : List (Key × α)) :
    c.insertList (p :: rest) = (c.cacheImage p.1 p.2).insertList rest := rfl

theorem LRU.insertList_append {α : Type} (c : LRU α)
    (l1 l2 : List (Key × α)) :
    c.insertList (l1 ++ l2) = (c.insertList l1).insertList l2 := by
  simp [LRU.insertList, List.foldl_append]

theorem LRU.cacheImage_fresh_no_evict {α : Type} (c : LRU α) (k : Key)
    (v : α) (hfresh : alookup c.store k = none)
    (hlt : c.store.length < c.capacity) :
    c.cacheImage k v =
      { c with usage := k :: c.usage, store := (k, v) :: c.store } := by
  rw [LRU.cacheImage, hfresh]
  simp [Nat.ne_of_lt hlt]

theorem LRU.insertList_fresh {α : Type} (ks : List (Key × α)) (c : LRU α)
    (hnd : (ks.map Prod.fst).Nodup)
    (hfresh : ∀ p ∈ ks, alookup c.store p.1 = none)
    (hlen : c.store.length + ks.length ≤ c.capacity) :
    c.insertList ks =
      { c with usage := (ks.map Prod.fst).reverse ++ c.usage,
               store := ks.reverse ++ c.store } := by
  induction ks generalizing c with
  | nil => simp [LRU.insertList]
  | cons p rest ih =>
      obtain ⟨k0, v0⟩ := p
      simp only [List.map_cons, List.nodup_cons] at hnd
      have hfresh0 : alookup c.store k0 = none :=
        hfresh (k0, v0) (List.mem_cons_self _ _)
      have hlt : c.store.length < c.capacity := by
        simp only [List.length_cons] at hlen
        omega
      rw [LRU.insertList_cons,
        LRU.cacheImage_fresh_no_evict c k0 v0 hfresh0 hlt, ih]
      · simp [List.reverse_cons, List.append_assoc]
      · exact hnd.2
      · intro q hq
        have hqmem : q.1 ∈ rest.map Prod.fst := List.mem_map_of_mem _ hq
        have hne : k0 ≠ q.1 := fun he => hnd.1 (he ▸ hqmem)
        simp only [alookup, hne, if_false]
        exact hfresh q (List.mem_cons_of_mem _ hq)
      · simp only [List.length_cons]
        simp only [List.length_cons] at hlen
        omega

/-- C1: for an LRU cache of capacity `C ≥ 1`, inserting `C + 1` pairs
with distinct keys via `cacheImage` (no intervening reads) leaves
exactly the last `C` keys, in most-recently-used-first order; the only
missing key is the first one inserted, and on the overflowing insert the
eviction victim is that first key, the least recently touched one. -/
theorem lru_capacity_overflow_evicts_first {α : Type} (C : Nat)
    (hC : 1 ≤ C) (ks : List (Key × α)) (hnd : (ks.map Prod.fst).Nodup)
    (hlen : ks.length = C + 1) :
    ((LRU.empty α C).insertList ks).getKeys =
        ((ks.map Prod.fst).tail).reverse ∧
    ((LRU.empty α C).insertList ks).getKeys.length = C ∧
    (∀ k, k ∈ ((LRU.empty α C).insertList ks).getKeys ↔
        k ∈ (ks.map Prod.fst).tail) ∧
    (∀ k0, (ks.map Prod.fst).head? = some k0 →
        k0 ∉ ((LRU.empty α C).insertList ks).getKeys) ∧
    ((LRU.empty α C).insertList ks.dropLast).evictionVictim =
        (ks.map Prod.fst).head? := by
  obtain ⟨p0, rest, rfl⟩ : ∃ p0 rest, ks = p0 :: rest := by
    cases ks with
    | nil => simp at hlen
    | cons p0 rest => exact ⟨p0, rest, rfl⟩
  obtain ⟨k0, v0⟩ := p0
  have hrlen : rest.length = C := by
    simp only [List.length_cons] at hlen
    omega
  have hrne : rest ≠ [] := by
    intro h
    rw [h] at hrlen
    simp at hrlen
    omega
  obtain ⟨mid, plast, rfl⟩ : ∃ mid plast, rest = mid ++ [plast] :=
    ⟨rest.dropLast, rest.getLast hrne, (List.dropLast_append_getLast hrne).symm⟩
  obtain ⟨kl, vl⟩ := plast
  have hmidlen : mid.length = C - 1 := by
    simp only [List.length_append, List.length_singleton] at hrlen
    omega
  simp only [List.map_cons, List.map_append, List.map_cons, List.map_nil,
    List.nodup_cons, List.nodup_append] at hnd
  -- step 1: the first insert goes into the empty cache with no eviction
  have hstep1 : (LRU.empty α C).cacheImage k0 v0 =
      { capacity := C, usage := [k0], store := [(k0, v0)] } := by
    rw [LRU.cacheImage_fresh_no_evict]
    · rfl
    · rfl
    · simpa [LRU.empty] using hC
  -- step 2: the middle inserts are fresh and stay within capacity
  have hstep2 :
      ({ capacity := C, usage := [k0], store := [(k0, v0)] } :
          LRU α).insertList mid =
      { capacity := C, usage := (mid.map Prod.fst).reverse ++ [k0],
        store := mid.reverse ++ [(k0, v0)] } := by
    rw [LRU.insertList_fresh]
    · exact hnd.2.1
    · intro q hq
      have hqmem : q.1 ∈ mid.map Prod.fst := List.mem_map_of_mem _ hq
      have hne : k0 ≠ q.1 := fun he => by
        apply hnd.1
        rw [he]
        exact List.mem_append_left _ hqmem
      simp [alookup, hne]
    · simp only [List.length_singleton]
      omega
  -- key facts about the state just before the overflowing insert
  have hk0kl : k0 ≠ kl := by
    intro he
    exact hnd.1 (List.mem_append_right _ (he ▸ List.mem_singleton_self _))
  have hklmid : kl ∉ mid.map Prod.fst := by
    intro hmem
    exact hnd.2.2.2 hmem (List.mem_singleton_self _)
  have hk0mid : k0 ∉ mid.map Prod.fst := by
    intro hmem
    exact hnd.1 (List.mem_append_left _ hmem)
  have hfreshl : alookup (mid.reverse ++ [(k0, v0)]) kl = none := by
    rw [alookup_eq_none_iff]
    simp only [List.map_append, List.map_reverse, List.map_cons,
      List.map_nil, List.mem_append, List.mem_reverse,
      List.mem_singleton, not_or]
    exact ⟨hklmid, fun he => hk0kl he.symm⟩
  have hstoreC : (mid.reverse ++ [(k0, v0)]).length = C := by
    simp only [List.length_append, List.length_reverse,
      List.length_singleton]
    omega
  -- step 3: the overflowing insert evicts the back of the recency list
  have hstep3 :
      ({ capacity := C, usage := (mid.map Prod.fst).reverse ++ [k0],
          store := mid.reverse ++ [(k0, v0)] } : LRU α).cacheImage kl vl =
      { capacity := C, usage := kl :: (mid.map Prod.fst).reverse,
        store := (kl, vl) :: aerase (mid.reverse ++ [(k0, v0)]) k0 } := by
    rw [LRU.cacheImage]
    simp only [hfreshl]
    simp [hstoreC, List.getLast?_concat, List.dropLast_concat]
  have hchain : (LRU.empty α C).insertList
        ((k0, v0) :: (mid ++ [(kl, vl)])) =
      { capacity := C, usage := kl :: (mid.map Prod.fst).reverse,
        store := (kl, vl) :: aerase (mid.reverse ++ [(k0, v0)]) k0 } := by
    have hsingle : ∀ c : LRU α, c.insertList [(kl, vl)] = c.cacheImage kl vl :=
      fun c => rfl
    rw [LRU.insertList_cons, hstep1, LRU.insertList_append, hstep2, hsingle]
    exact hstep3
  have hdrop : ((k0, v0) :: (mid ++ [(kl, vl)])).dropLast =
      (k0, v0) :: mid := by
    rw [List.dropLast_cons_of_ne_nil (by simp), List.dropLast_concat]
  refine ⟨?_, ?_, ?_, ?_, ?_⟩
  · rw [hchain]
    simp [LRU.getKeys, List.reverse_append]
  · rw [hchain]
    simp only [LRU.getKeys, List.length_cons, List.length_reverse,
      List.length_map]
    omega
  · intro k
    rw [hchain]
    simp only [LRU.getKeys, List.map_cons, List.map_append, List.map_cons,
      List.map_nil, List.tail_cons, List.mem_cons, List.mem_reverse,
      List.mem_append, List.mem_singleton]
    tauto
  · intro kh hkh
    rw [hchain]
    simp only [List.map_cons, List.head?_cons, Option.some_inj] at hkh
    subst hkh
    simp only [LRU.getKeys, List.mem_cons, List.mem_reverse, not_or]
    exact ⟨hk0kl, hk0mid⟩
  · rw [hdrop, LRU.insertList_cons, hstep1]
    show (({ capacity := C, usage := [k0], store := [(k0, v0)] } :
        LRU α).insertList mid).evictionVictim = _
    rw [hstep2]
    simp [LRU.evictionVictim, List.getLast?_concat]

/-- Witness for `lru_capacity_overflow_evicts_first`: capacity 2, three
distinct keys; the first key "a" is evicted and the order is
most-recently-used first. -/
theorem lru_capacity_overflow_evicts_first_witness :
    ((LRU.empty Nat 2).insertList [("a", 1), ("b", 2), ("c", 3)]).getKeys =
      ["c", "b"] := by
  have h := lru_capacity_overflow_evicts_first (α := Nat) 2 (by decide)
    [("a", 1), ("b", 2), ("c", 3)] (by decide) (by decide)
  exact h.1.trans (by decide)

/-- C8: with capacity at least 1 and map and recency list in sync, the
eviction branch of `cacheImage` is reached only when the recency list is
non-empty, so `usage_.back()` is well defined; with capacity 0, the
first insertion of a new key reaches the eviction branch while the
recency list is empty. -/
theorem lru_eviction_branch_safety {α : Type} :
    (∀ (c : LRU α) (key : Key), 1 ≤ c.capacity →
      c.store.length = c.usage.length →
      alookup c.store key = none → c.store.length = c.capacity →
      c.usage ≠ []) ∧
    (∀ key : Key, (LRU.empty α 0).evictBranchOnEmpty key) := by
  constructor
  · intro c key hcap hsync _ hfull hempty
    rw [hempty] at hsync
    simp only [List.length_nil] at hsync
    omega
  · intro key
    exact ⟨rfl, rfl, rfl⟩

/-- Witness for `lru_eviction_branch_safety` on a concrete full cache of
capacity 1. -/
theorem lru_eviction_branch_safety_witness :
    (⟨1, ["a"], [("a", 5)]⟩ : LRU Nat).usage ≠ [] :=
  (lru_eviction_branch_safety (α := Nat)).1 ⟨1, ["a"], [("a", 5)]⟩ "b"
    (by decide) (by decide) (by decide) (by decide)

/-- C9: `cacheImage` on a key already present in a full LRU cache
replaces the stored value and moves the key to the most-recently-used
position without evicting anything: the store size, the recency-list
length and the set of cached keys are unchanged, and every other entry
keeps its value. -/
theorem lru_reinsert_existing_no_evict {α : Type} (c : LRU α) (k : Key)
    (v w : α) (hk : alookup c.store k = some v) (hmem : k ∈ c.usage)
    (hnd : c.usage.Nodup) (hfull : c.store.length = c.capacity) :
    alookup (c.cacheImage k w).store k = some w ∧
    (c.cacheImage k w).getKeys.head? = some k ∧
    (c.cacheImage k w).store.length = c.store.length ∧
    (c.cacheImage k w).getKeys.length = c.getKeys.length ∧
    (∀ k2, k2 ∈ (c.cacheImage k w).getKeys ↔ k2 ∈ c.getKeys) ∧
    (∀ k2, k2 ≠ k →
      alookup (c.cacheImage k w).store k2 = alookup c.store k2) := by
  have hupd : c.cacheImage k w =
      { c with store := aupdate c.store k w,
               usage := k :: removeKey c.usage k } := by
    rw [LRU.cacheImage, hk]
  rw [hupd]
  refine ⟨alookup_aupdate_self _ _ _, rfl, ?_, ?_, ?_, ?_⟩
  · exact length_aupdate_of_isSome _ _ _ (by rw [hk]; rfl)
  · simp only [LRU.getKeys, List.length_cons]
    exact length_removeKey_of_mem hmem
  · intro k2
    by_cases h2 : k2 = k
    · subst h2
      constructor
      · intro _
        exact hmem
      · intro _
        show k2 ∈ k2 :: removeKey c.usage k2
        exact List.mem_cons_self _ _
    · simp only [LRU.getKeys, List.mem_cons]
      rw [mem_removeKey_of_ne h2]
      constructor
      · rintro (h | h)
        · exact absurd h h2
        · exact h
      · exact fun h => Or.inr h
  · intro k2 h2
    exact alookup_aupdate_ne _ _ h2

/-- Witness for `lru_reinsert_existing_no_evict` on a concrete full
cache of capacity 2. -/
theorem lru_reinsert_existing_no_evict_witness :
    alookup ((⟨2, ["a", "b"], [("a", 1), ("b", 2)]⟩ :
      LRU Nat).cacheImage "b" 9).store "b" = some 9 :=
  (lru_reinsert_existing_no_evict ⟨2, ["a", "b"], [("a", 1), ("b", 2)]⟩
    "b" 2 9 (by decide) (by decide) (by decide) (by decide)).1

/-- C4: touching a present key via `getCached`, `getCachedShallow` or
`cacheImage` moves it to the front of the order reported by `getKeys`
(most-recently-used first); afterwards the eviction victim is not the
just-touched key while another key is still present, so a subsequent
overflowing insert of a fresh key keeps the just-touched key cached. -/
theorem lru_touch_moves_to_front {α : Type} (c : LRU α) (k : Key)
    (v w : α) (hk : alookup c.store k = some v) (hmem : k ∈ c.usage)
    (hnd : c.usage.Nodup) (hlen : 2 ≤ c.usage.length) :
    ((c.getCachedSt k).2.getKeys.head? = some k) ∧
    ((c.getCachedShallowSt k).2.getKeys.head? = some k) ∧
    ((c.cacheImage k w).getKeys.head? = some k) ∧
    ((c.getCachedSt k).2.evictionVictim ≠ some k) ∧
    (∀ k2 v2, alookup (c.getCachedSt k).2.store k2 = none →
        k ∈ ((c.getCachedSt k).2.cacheImage k2 v2).getKeys) := by
  have ht : c.getCachedSt k =
      (some v, { c with usage := k :: removeKey c.usage k }) := by
    rw [LRU.getCachedSt, hk]
  have hts : c.getCachedShallowSt k =
      (some v, { c with usage := k :: removeKey c.usage k }) := by
    rw [LRU.getCachedShallowSt, hk]
  have hupd : c.cacheImage k w =
      { c with store := aupdate c.store k w,
               usage := k :: removeKey c.usage k } := by
    rw [LRU.cacheImage, hk]
  have hrne : removeKey c.usage k ≠ [] := by
    have := length_removeKey_of_mem hmem
    intro h
    rw [h] at this
    simp at this
    omega
  have hknr : k ∉ removeKey c.usage k := not_mem_removeKey_self hnd k
  obtain ⟨x, xs, hxs⟩ : ∃ x xs, removeKey c.usage k = x :: xs := by
    cases hcase : removeKey c.usage k with
    | nil => exact absurd hcase hrne
    | cons x xs => exact ⟨x, xs, rfl⟩
  refine ⟨by rw [ht]; rfl, by rw [hts]; rfl, by rw [hupd]; rfl, ?_, ?_⟩
  · rw [ht]
    simp only [LRU.evictionVictim, LRU.getKeys]
    rw [hxs, List.getLast?_cons_cons]
    intro hlast
    obtain ⟨hne2, hkeq⟩ :=
      List.mem_getLast?_eq_getLast (Option.mem_def.mpr hlast)
    have hkmem : k ∈ x :: xs := hkeq ▸ List.getLast_mem hne2
    rw [← hxs] at hkmem
    exact hknr hkmem
  · intro k2 v2 hfresh2
    rw [ht] at hfresh2 ⊢
    simp only at hfresh2
    rw [LRU.cacheImage, hfresh2]
    by_cases hf : c.store.length = c.capacity
    · simp only [hf, if_pos, LRU.getKeys]
      have : (k :: removeKey c.usage k).dropLast =
          k :: (removeKey c.usage k).dropLast :=
        List.dropLast_cons_of_ne_nil hrne
      simp only [this]
      exact List.mem_cons_of_mem _ (List.mem_cons_self _ _)
    · simp only [hf, if_neg, LRU.getKeys]
      exact List.mem_cons_of_mem _ (List.mem_cons_self _ _)

/-- Witness for `lru_touch_moves_to_front`: reading "b" in a two-entry
cache moves it to the front of `getKeys`. -/
theorem lru_touch_moves_to_front_witness :
    (((⟨2, ["a", "b"], [("a", 1), ("b", 2)]⟩ :
      LRU Nat).getCachedSt "b").2.getKeys.head? = some "b") :=
  (lru_touch_moves_to_front ⟨2, ["a", "b"], [("a", 1), ("b", 2)]⟩ "b" 2 7
    (by decide) (by decide) (by decide) (by decide)).1

/-! ### RegionPipeline lemmas -/

theorem processRegion_of_undetected {α : Type} (ops : ImageOps α)
    (det : α → List Rect) (st : RState α) (key : Key) (f : α → Rect → α)
    (img : α) (himg : alookup st.workingMap key = some img)
    (hmeta : ((alookup st.metaMap key).getD
      RegionMeta.default).regionsDetected = false) :
    processRegion ops det st key f =
      ⟨⟨aupdate st.metaMap key ⟨det img, true⟩,
        aupdate st.workingMap key
          (regionLoop ops f img (det img)).1⟩,
       false, 1, (regionLoop ops f img (det img)).2⟩ := by
  rw [processRegion, himg]
  simp only [hmeta, Bool.false_eq_true, if_false]

theorem processRegion_of_detected {α : Type} (ops : ImageOps α)
    (det : α → List Rect) (st : RState α) (key : Key) (f : α → Rect → α)
    (img : α) (m : RegionMeta)
    (himg : alookup st.workingMap key = some img)
    (hm : alookup st.metaMap key = some m)
    (hdet : m.regionsDetected = true) :
    processRegion ops det st key f =
      ⟨⟨aupdate st.metaMap key m,
        aupdate st.workingMap key (regionLoop ops f img m.regions).1⟩,
       false, 0, (regionLoop ops f img m.regions).2⟩ := by
  rw [processRegion, himg]
  simp only [hm, Option.getD_some, hdet, if_true]

theorem runSeq_of_detected {α : Type} (ops : ImageOps α)
    (det : α → List Rect) (key : Key) (fs : List (α → Rect → α)) :
    ∀ (st : RState α) (m : RegionMeta),
      (alookup st.workingMap key).isSome →
      alookup st.metaMap key = some m → m.regionsDetected = true →
      (runSeq ops det st key fs).2 = 0 ∧
      (alookup (runSeq ops det st key fs).1.workingMap key).isSome ∧
      alookup (runSeq ops det st key fs).1.metaMap key = some m := by
  induction fs with
  | nil => intro st m hw hm _; exact ⟨rfl, hw, hm⟩
  | cons f rest ih =>
      intro st m hw hm hdet
      obtain ⟨img, himg⟩ := Option.isSome_iff_exists.mp hw
      have hstep := processRegion_of_detected ops det st key f img m
        himg hm hdet
      have hw2 : (alookup (processRegion ops det st key f).state.workingMap
          key).isSome := by
        rw [hstep]
        simp [alookup_aupdate_self]
      have hm2 : alookup (processRegion ops det st key f).state.metaMap
          key = some m := by
        rw [hstep]
        exact alookup_aupdate_self _ _ _
      have htail := ih (processRegion ops det st key f).state m hw2 hm2 hdet
      refine ⟨?_, htail.2.1, htail.2.2⟩
      show (processRegion ops det st key f).detectorCalls +
        (runSeq ops det (processRegion ops det st key f).state key rest).2 = 0
      rw [htail.1, hstep]

/-- C3: for a key in the working set, any sequence of `processRegion`
calls for that key runs the detector at most once: zero times when the
metadata of the key is already detected, exactly once (on the first call)
when it is absent or undetected; `resetRegion` drops the metadata, so
the next `processRegion` call detects again. -/
theorem region_detector_at_most_once {α : Type} (ops : ImageOps α)
    (det : α → List Rect) (st : RState α) (key : Key)
    (fs : List (α → Rect → α))
    (hw : (alookup st.workingMap key).isSome) :
    (runSeq ops det st key fs).2 ≤ 1 ∧
    ((∃ m, alookup st.metaMap key = some m ∧ m.regionsDetected = true) →
      (runSeq ops det st key fs).2 = 0) ∧
    (fs ≠ [] →
      ((alookup st.metaMap key).getD
        RegionMeta.default).regionsDetected = false →
      (runSeq ops det st key fs).2 = 1) ∧
    (∀ f, ((alookup st.metaMap key).getD
        RegionMeta.default).regionsDetected = false →
      (processRegion ops det st key f).detectorCalls = 1 ∧
      (∃ m, alookup (processRegion ops det st key f).state.metaMap key =
        some m ∧ m.regionsDetected = true)) ∧
    alookup (resetRegion st key).metaMap key = none ∧
    (∀ f, (processRegion ops det (resetRegion st key) key f).detectorCalls
      = 1) := by
  obtain ⟨img, himg⟩ := Option.isSome_iff_exists.mp hw
  have hone : ∀ f, ((alookup st.metaMap key).getD
      RegionMeta.default).regionsDetected = false →
      (runSeq ops det st key (f :: fs.tail)).2 = 1 ∧
      (processRegion ops det st key f).detectorCalls = 1 ∧
      (∃ m, alookup (processRegion ops det st key f).state.metaMap key =
        some m ∧ m.regionsDetected = true) := by
    intro f hmeta
    have hstep := processRegion_of_undetected ops det st key f img
      himg hmeta
    have hw2 : (alookup (processRegion ops det st key f).state.workingMap
        key).isSome := by
      rw [hstep]
      simp [alookup_aupdate_self]
    have hm2 : alookup (processRegion ops det st key f).state.metaMap
        key = some ⟨det img, true⟩ := by
      rw [hstep]
      exact alookup_aupdate_self _ _ _
    have htail := runSeq_of_detected ops det key fs.tail
      (processRegion ops det st key f).state ⟨det img, true⟩ hw2 hm2 rfl
    refine ⟨?_, ?_, ⟨det img, true⟩, hm2, rfl⟩
    · show (processRegion ops det st key f).detectorCalls +
        (runSeq ops det (processRegion ops det st key f).state key
          fs.tail).2 = 1
      rw [htail.1, hstep]
    · rw [hstep]
  have hdich : (∃ m, alookup st.metaMap key = some m ∧
      m.regionsDetected = true) ∨
      ((alookup st.metaMap key).getD
        RegionMeta.default).regionsDetected = false := by
    cases hcase : alookup st.metaMap key with
    | none => exact Or.inr rfl
    | some m =>
        cases hdet : m.regionsDetected with
        | true => exact Or.inl ⟨m, rfl, hdet⟩
        | false => exact Or.inr hdet
  refine ⟨?_, ?_, ?_, ?_, alookup_aerase_self _ _, ?_⟩
  · cases fs with
    | nil => exact Nat.zero_le 1
    | cons f rest =>
        rcases hdich with hdet | hmeta
        · obtain ⟨m, hm, hd⟩ := hdet
          rw [(runSeq_of_detected ops det key (f :: rest) st m hw hm hd).1]
          omega
        · have h1 := (hone f hmeta).1
          simp only [List.tail_cons] at h1
          rw [h1]
  · intro hdet
    obtain ⟨m, hm, hd⟩ := hdet
    exact (runSeq_of_detected ops det key fs st m hw hm hd).1
  · intro hne hmeta
    cases fs with
    | nil => exact absurd rfl hne
    | cons f rest =>
        have h1 := (hone f hmeta).1
        simpa only [List.tail_cons] using h1
  · intro f hmeta
    exact ⟨(hone f hmeta).2.1, (hone f hmeta).2.2⟩
  · intro f
    have hmeta : ((alookup (resetRegion st key).metaMap key).getD
        RegionMeta.default).regionsDetected = false := by
      show ((alookup (aerase st.metaMap key) key).getD
        RegionMeta.default).regionsDetected = false
      rw [alookup_aerase_self]
      rfl
    have himg2 : alookup (resetRegion st key).workingMap key = some img :=
      himg
    rw [processRegion_of_undetected ops det (resetRegion st key) key f img
      himg2 hmeta]

/-- Witness for `region_detector_at_most_once` on a concrete one-key
state: two consecutive `processRegion` calls run the detector exactly
once in total. -/
theorem region_detector_at_most_once_witness :
    (runSeq imgOps (fun i => [⟨0, 0, i.cols, i.rows⟩])
      ⟨[], [("a", ⟨4, 4, 0⟩)]⟩ "a"
      [fun i _ => i, fun i _ => i]).2 ≤ 1 :=
  (region_detector_at_most_once imgOps
    (fun i => [⟨0, 0, i.cols, i.rows⟩]) ⟨[], [("a", ⟨4, 4, 0⟩)]⟩ "a"
    [fun i _ => i, fun i _ => i] (by decide)).1

theorem regionLoop_rois_of_dim_preserving {α : Type} (ops : ImageOps α)
    (f : α → Rect → α)
    (hdim : ∀ i r, ops.cols (f i r) = ops.cols i ∧
      ops.rows (f i r) = ops.rows i) (rs : List Rect) :
    ∀ img : α, (regionLoop ops f img rs).2 =
      rs.map (fun r => r.inter ⟨0, 0, ops.cols img, ops.rows img⟩) := by
  induction rs with
  | nil => intro img; rfl
  | cons r rest ih =>
      intro img
      simp only [regionLoop, List.map_cons, List.cons.injEq, true_and]
      rw [ih]
      have h := hdim img (r.inter ⟨0, 0, ops.cols img, ops.rows img⟩)
      rw [h.1, h.2]

theorem applyFilterToRegions_all_empty {α : Type} (ops : ImageOps α)
    (img : α) (boxes : List Rect) (g : α → α)
    (hempty : ∀ b ∈ boxes,
      (b.inter ⟨0, 0, ops.cols img, ops.rows img⟩).nonEmpty = false) :
    applyFilterToRegions ops img boxes g = (img, []) := by
  induction boxes with
  | nil => rfl
  | cons b bs ih =>
      have hb := hempty b (List.mem_cons_self _ _)
      simp only [applyFilterToRegions, hb, Bool.false_eq_true, if_false]
      exact ih (fun b2 hb2 => hempty b2 (List.mem_cons_of_mem _ hb2))

/-- C2 counterexample: a cached region whose intersection with the
item bounds is empty still yields one regionOp invocation in
`processRegion` (with the clamped all-zero roi), contradicting the
claim that an empty intersection contributes no regionOp invocation. -/
theorem processRegion_empty_inter_invoked_cex :
    ((⟨20, 20, 5, 5⟩ : Rect).inter ⟨0, 0, 10, 10⟩).nonEmpty = false ∧
    (processRegion imgOps (fun _ => [])
      ⟨[("a", ⟨[⟨20, 20, 5, 5⟩], true⟩)], [("a", ⟨10, 10, 0⟩)]⟩
      "a" (fun i _ => i)).rois = [⟨0, 0, 0, 0⟩] := by
  decide

/-- C2 (amended): `processRegion` intersects every cached region with
the current item bounds but invokes the region operation on each of
them, including those whose intersection is empty (passing the clamped,
all-zero roi); the skip of empty intersections — no filter invocation
and no mutation — holds in the `applyFilterToRegions` helper instead. -/
theorem processRegion_invokes_on_all_regions {α : Type}
    (ops : ImageOps α) (det : α → List Rect) (st : RState α) (key : Key)
    (f : α → Rect → α) (img : α)
    (himg : alookup st.workingMap key = some img)
    (hdim : ∀ i r, ops.cols (f i r) = ops.cols i ∧
      ops.rows (f i r) = ops.rows i) :
    (processRegion ops det st key f).rois =
      (if ((alookup st.metaMap key).getD
            RegionMeta.default).regionsDetected
       then ((alookup st.metaMap key).getD RegionMeta.default).regions
       else det img).map
        (fun r => r.inter ⟨0, 0, ops.cols img, ops.rows img⟩) ∧
    (∀ (boxes : List Rect) (g : α → α),
      (∀ b ∈ boxes,
        (b.inter ⟨0, 0, ops.cols img, ops.rows img⟩).nonEmpty = false) →
      applyFilterToRegions ops img boxes g = (img, [])) := by
  constructor
  · cases hcase : alookup st.metaMap key with
    | none =>
        have hmeta : ((alookup st.metaMap key).getD
            RegionMeta.default).regionsDetected = false := by
          rw [hcase]
          rfl
        rw [processRegion_of_undetected ops det st key f img himg hmeta]
        simpa [RegionMeta.default] using
          regionLoop_rois_of_dim_preserving ops f hdim (det img) img
    | some m =>
        cases hdet : m.regionsDetected with
        | true =>
            rw [processRegion_of_detected ops det st key f img m himg
              hcase hdet]
            simpa [hdet] using
              regionLoop_rois_of_dim_preserving ops f hdim m.regions img
        | false =>
            have hmeta : ((alookup st.metaMap key).getD
                RegionMeta.default).regionsDetected = false := by
              rw [hcase]
              exact hdet
            rw [processRegion_of_undetected ops det st key f img himg hmeta]
            simpa [hdet] using
              regionLoop_rois_of_dim_preserving ops f hdim (det img) img
  · intro boxes g hempty
    exact applyFilterToRegions_all_empty ops img boxes g hempty

/-- Witness for `processRegion_invokes_on_all_regions`: two cached
regions, one inside the bounds and one fully outside, give exactly two
regionOp invocations, the second on the all-zero roi. -/
theorem processRegion_invokes_on_all_regions_witness :
    (processRegion imgOps (fun _ => [])
      ⟨[("a", ⟨[⟨1, 1, 2, 2⟩, ⟨20, 20, 5, 5⟩], true⟩)],
        [("a", ⟨4, 4, 0⟩)]⟩ "a" (fun i _ => i)).rois =
      [⟨1, 1, 2, 2⟩, ⟨0, 0, 0, 0⟩] := by
  have h := (processRegion_invokes_on_all_regions imgOps (fun _ => [])
    ⟨[("a", ⟨[⟨1, 1, 2, 2⟩, ⟨20, 20, 5, 5⟩], true⟩)],
      [("a", ⟨4, 4, 0⟩)]⟩ "a" (fun i _ => i) ⟨4, 4, 0⟩ (by decide)
    (fun i r => ⟨rfl, rfl⟩)).1
  exact h.trans (by decide)

/-! ### Pipeline lemmas -/

/-- C7: `process(key, op)` fails with `KeyNotFound` exactly when the key
is absent from the working set; on failure the whole state is unchanged,
and on success the working-set value for the key becomes `op` of the
current value while every other working-set entry, the cache and the
input folder are untouched. -/
theorem process_keynotfound_frame {α : Type} (st : PState α) (key : Key)
    (op : α → α) :
    ((Pipeline.process st key op).2 = some .keyNotFound ↔
      alookup st.workingMap key = none) ∧
    (alookup st.workingMap key = none →
      (Pipeline.process st key op).1 = st) ∧
    (∀ v, alookup st.workingMap key = some v →
      (Pipeline.process st key op).2 = none ∧
      alookup (Pipeline.process st key op).1.workingMap key =
        some (op v) ∧
      (∀ k2, k2 ≠ key →
        alookup (Pipeline.process st key op).1.workingMap k2 =
          alookup st.workingMap k2) ∧
      (Pipeline.process st key op).1.cache = st.cache ∧
      (Pipeline.process st key op).1.files = st.files) := by
  cases hcase : alookup st.workingMap key with
  | none =>
      have hp : Pipeline.process st key op = (st, some .keyNotFound) := by
        rw [Pipeline.process, hcase]
      refine ⟨⟨fun _ => rfl, fun _ => by rw [hp]⟩, fun _ => by rw [hp], ?_⟩
      intro v hv
      exact absurd hv (by simp)
  | some v =>
      have hp : Pipeline.process st key op =
          ({ st with workingMap := aupdate st.workingMap key (op v) },
            none) := by
        rw [Pipeline.process, hcase]
      refine ⟨⟨fun h => ?_, fun h => absurd h (by simp)⟩,
        fun h => absurd h (by simp), ?_⟩
      · rw [hp] at h
        exact absurd h (by simp)
      · intro v2 hv2
        have hveq : v2 = v := (Option.some_inj.mp hv2).symm
        subst hveq
        rw [hp]
        exact ⟨rfl, alookup_aupdate_self _ _ _,
          fun k2 h2 => alookup_aupdate_ne _ _ h2, rfl, rfl⟩

/-- Witness for `process_keynotfound_frame` on a concrete one-entry
working set: processing doubles the stored value. -/
theorem process_keynotfound_frame_witness :
    alookup (Pipeline.process (⟨[], [("a", 3)], [("a", 3)]⟩ : PState Nat)
      "a" (fun n => n + n)).1.workingMap "a" = some 6 :=
  ((process_keynotfound_frame (⟨[], [("a", 3)], [("a", 3)]⟩ : PState Nat)
    "a" (fun n => n + n)).2.2 3 (by decide)).2.1

/-- C6: `load(path)` is idempotent on the working set: for a path that
is already a working-set key it leaves the whole state unchanged (and
returns normally when the file exists); for an absent path it fails
with `FileNotFound` when the resolved file is missing, and otherwise
populates the cache (only when not already cached) and copies the
cached value into the working set. -/
theorem load_idempotent_branches {α : Type} (st : PState α) (path : Key) :
    ((alookup st.workingMap path).isSome →
      (Pipeline.load st path).1 = st) ∧
    ((alookup st.workingMap path).isSome →
      (alookup st.files path).isSome →
      Pipeline.load st path = (st, none)) ∧
    (alookup st.workingMap path = none → alookup st.files path = none →
      Pipeline.load st path = (st, some .fileNotFound)) ∧
    (∀ item, alookup st.workingMap path = none →
      alookup st.files path = some item →
      (∀ v, alookup st.cache path = some v →
        Pipeline.load st path =
          ({ st with workingMap := aupdate st.workingMap path v },
            none)) ∧
      (alookup st.cache path = none →
        Pipeline.load st path =
          ({ st with cache := aupdate st.cache path item,
                     workingMap := aupdate st.workingMap path item },
            none))) := by
  refine ⟨?_, ?_, ?_, ?_⟩
  · intro hw
    cases hf : alookup st.files path with
    | none =>
        rw [Pipeline.load, hf]
    | some item =>
        rw [Pipeline.load, hf]
        simp only [hw, if_true]
  · intro hw hf
    obtain ⟨item, hitem⟩ := Option.isSome_iff_exists.mp hf
    rw [Pipeline.load, hitem]
    simp only [hw, if_true]
  · intro _ hf
    rw [Pipeline.load, hf]
  · intro item hw hf
    constructor
    · intro v hv
      rw [Pipeline.load, hf]
      simp only [hw, Option.isSome_none, Bool.false_eq_true, if_false]
      rw [show (alookup st.cache path).isSome = true by rw [hv]; rfl]
      simp only [if_true, hv]
    · intro hc
      rw [Pipeline.load, hf]
      simp only [hw, Option.isSome_none, Bool.false_eq_true, if_false, hc,
        alookup_aupdate_self]

/-- Witness for `load_idempotent_branches`: loading a path already in
the working set leaves the state unchanged. -/
theorem load_idempotent_branches_witness :
    Pipeline.load (⟨[("a", 7)], [("a", 5)], [("a", 7)]⟩ : PState Nat)
      "a" = (⟨[("a", 7)], [("a", 5)], [("a", 7)]⟩, none) :=
  (load_idempotent_branches
    (⟨[("a", 7)], [("a", 5)], [("a", 7)]⟩ : PState Nat) "a").2.1
    (by decide) (by decide)

/-- C10: `reset(key)` is not atomic on failure: when the key is in the
working set but its resolved file is absent under the input folder
(for example for keys loaded from memory), the release step has already
removed the key from the working set when the load step throws
`FileNotFound`, so the working set is mutated although reset reports an
error; the cache is untouched. -/
theorem reset_not_atomic_on_failure {α : Type} (st : PState α)
    (key : Key) (v : α) (hw : alookup st.workingMap key = some v)
    (hf : alookup st.files key = none) :
    (Pipeline.reset st key).2 = some .fileNotFound ∧
    alookup (Pipeline.reset st key).1.workingMap key = none ∧
    (Pipeline.reset st key).1.workingMap = aerase st.workingMap key ∧
    (Pipeline.reset st key).1.cache = st.cache := by
  have hrel : Pipeline.release st key =
      ({ st with workingMap := aerase st.workingMap key }, none) := by
    rw [Pipeline.release]
    simp only [hw, Option.isSome_some, if_true]
  have hload : Pipeline.load
      ({ st with workingMap := aerase st.workingMap key }) key =
      ({ st with workingMap := aerase st.workingMap key },
        some .fileNotFound) := by
    rw [Pipeline.load]
    simp only [hf]
  have hres : Pipeline.reset st key =
      ({ st with workingMap := aerase st.workingMap key },
        some .fileNotFound) := by
    rw [Pipeline.reset, hrel]
    exact hload
  rw [hres]
  exact ⟨rfl, alookup_aerase_self _ _, rfl, rfl⟩

/-- Witness for `reset_not_atomic_on_failure`: a key loaded from memory
(no backing file) is lost from the working set by a failing reset. -/
theorem reset_not_atomic_on_failure_witness :
    (Pipeline.reset (⟨[], [("m", 4)], [("m", 4)]⟩ : PState Nat)
      "m").2 = some .fileNotFound :=
  (reset_not_atomic_on_failure (⟨[], [("m", 4)], [("m", 4)]⟩ : PState Nat)
    "m" 4 (by decide) (by decide)).1

/-- C5 counterexample: for a key present in the working set (and in the
cache) whose resolved file is absent, `reset` reports `FileNotFound`
and leaves the working set without the key, so the working-set entry
does not equal the pre-release cache value as the claim states. -/
theorem reset_missing_file_cex :
    alookup ((⟨[], [("a", 5)], [("a", 7)]⟩ : PState Nat).workingMap)
      "a" = some 5 ∧
    alookup ((⟨[], [("a", 5)], [("a", 7)]⟩ : PState Nat).cache)
      "a" = some 7 ∧
    (Pipeline.reset (⟨[], [("a", 5)], [("a", 7)]⟩ : PState Nat)
      "a").2 = some .fileNotFound ∧
    alookup (Pipeline.reset (⟨[], [("a", 5)], [("a", 7)]⟩ : PState Nat)
      "a").1.workingMap "a" = none := by
  decide

/-- C5 (amended): for a key present in the working set and in the
cache, whose resolved file exists under the input folder, `reset(key)`
behaves as `release` followed by `load`: it succeeds, the working-set
entry for the key afterwards equals the pre-release cache value, and
nothing else — other working-set entries, the cache, the input
folder — is mutated. -/
theorem reset_roundtrip_restores_cache_value {α : Type} (st : PState α)
    (key : Key) (cv : α) (hw : (alookup st.workingMap key).isSome)
    (hc : alookup st.cache key = some cv)
    (hf : (alookup st.files key).isSome) :
    (Pipeline.reset st key).2 = none ∧
    alookup (Pipeline.reset st key).1.workingMap key = some cv ∧
    (∀ k2, k2 ≠ key →
      alookup (Pipeline.reset st key).1.workingMap k2 =
        alookup st.workingMap k2) ∧
    (Pipeline.reset st key).1.cache = st.cache ∧
    (Pipeline.reset st key).1.files = st.files := by
  obtain ⟨item, hitem⟩ := Option.isSome_iff_exists.mp hf
  have hrel : Pipeline.release st key =
      ({ st with workingMap := aerase st.workingMap key }, none) := by
    rw [Pipeline.release]
    simp only [hw, if_true]
  have hload : Pipeline.load
      ({ st with workingMap := aerase st.workingMap key }) key =
      ({ st with workingMap :=
          aupdate (aerase st.workingMap key) key cv }, none) := by
    rw [Pipeline.load, hitem]
    simp only [alookup_aerase_self, Option.isSome_none,
      Bool.false_eq_true, if_false]
    rw [show (alookup st.cache key).isSome = true by rw [hc]; rfl]
    simp only [if_true, hc]
  have hres : Pipeline.reset st key =
      ({ st with workingMap :=
          aupdate (aerase st.workingMap key) key cv }, none) := by
    rw [Pipeline.reset, hrel]
    exact hload
  rw [hres]
  refine ⟨rfl, alookup_aupdate_self _ _ _, ?_, rfl, rfl⟩
  intro k2 h2
  show alookup (aupdate (aerase st.workingMap key) key cv) k2 =
    alookup st.workingMap k2
  rw [alookup_aupdate_ne _ _ h2, alookup_aerase_ne _ h2]

/-- Witness for `reset_roundtrip_restores_cache_value`: resetting a key
whose working copy diverged restores the cached value. -/
theorem reset_roundtrip_restores_cache_value_witness :
    alookup (Pipeline.reset
      (⟨[("a", 7)], [("a", 5)], [("a", 7)]⟩ : PState Nat)
      "a").1.workingMap "a" = some 7 :=
  (reset_roundtrip_restores_cache_value
    (⟨[("a", 7)], [("a", 5)], [("a", 7)]⟩ : PState Nat) "a" 7
    (by decide) (by decide) (by decide)).2.1


end Pixlink
